import Mathlib

/-!
Verification of the CartoType string engine (cartotype_string.h).

Strings are modelled as lists of UTF-16 code units (`List Nat`); the
five-way lexicographic comparison, the string-match-method flag set, the
storage variants and the folding iterator are shallowly embedded from the
header source.
-/

namespace CartoTypeCore

/--
Embedding of `MString::Compare(const MString& aString)`: walks both
code-unit sequences in step while both have units left, returning `-2`
or `2` at the first differing unit, and otherwise classifies by which
sequence (if either) has units remaining: `-1` when this string ran out
first, `1` when the other ran out first, `0` when both ended together.
-/
def MStringCompare : List Nat → List Nat → Int
  | [], [] => 0
  | [], _ :: _ => -1
  | _ :: _, [] => 1
  | p :: ps, q :: qs =>
    if p < q then -2
    else if q < p then 2
    else MStringCompare ps qs

/-- `a` is a (not necessarily proper) code-unit-sequence head of `b`. -/
def PfxOf (a b : List Nat) : Prop := ∃ c, a ++ c = b

/-- `a` is a proper head of `b`: a head of `b` and not equal to it. -/
def ProperPfxOf (a b : List Nat) : Prop := PfxOf a b ∧ a ≠ b

theorem pfxOf_nil_left (b : List Nat) : PfxOf [] b := ⟨b, rfl⟩

theorem pfxOf_cons (p q : Nat) (ps qs : List Nat) :
    PfxOf (p :: ps) (q :: qs) ↔ p = q ∧ PfxOf ps qs := by
  constructor
  · rintro ⟨c, hc⟩
    injection hc with h1 h2
    exact ⟨h1, c, h2⟩
  · rintro ⟨rfl, c, hc⟩
    exact ⟨c, by rw [List.cons_append, hc]⟩

theorem not_pfxOf_cons_nil (p : Nat) (ps : List Nat) : ¬ PfxOf (p :: ps) [] := by
  rintro ⟨c, hc⟩
  simp at hc

theorem properPfxOf_cons (p q : Nat) (ps qs : List Nat) :
    ProperPfxOf (p :: ps) (q :: qs) ↔ p = q ∧ ProperPfxOf ps qs := by
  unfold ProperPfxOf
  rw [pfxOf_cons]
  constructor
  · rintro ⟨⟨rfl, hp⟩, hne⟩
    exact ⟨rfl, hp, fun h => hne (by rw [h])⟩
  · rintro ⟨rfl, hp, hne⟩
    exact ⟨⟨rfl, hp⟩, fun h => hne (by injection h)⟩

theorem mStringCompare_self (a : List Nat) : MStringCompare a a = 0 := by
  induction a with
  | nil => rfl
  | cons p ps ih => simp [MStringCompare, ih]

theorem mStringCompare_swap :
    ∀ a b : List Nat, MStringCompare a b = -MStringCompare b a
  | [], [] => rfl
  | [], _ :: _ => rfl
  | _ :: _, [] => rfl
  | p :: ps, q :: qs => by
    rcases Nat.lt_trichotomy p q with h | h | h
    · simp [MStringCompare, h, Nat.lt_asymm h]
    · subst h
      simp [MStringCompare, mStringCompare_swap ps qs]
    · simp [MStringCompare, h, Nat.lt_asymm h]

theorem mStringCompare_eq_zero :
    ∀ a b : List Nat, MStringCompare a b = 0 ↔ a = b
  | [], [] => by simp [MStringCompare]
  | [], _ :: _ => by simp [MStringCompare]
  | _ :: _, [] => by simp [MStringCompare]
  | p :: ps, q :: qs => by
    rcases Nat.lt_trichotomy p q with h | h | h
    · simp [MStringCompare, h, Nat.ne_of_lt h]
    · subst h
      simp [MStringCompare, mStringCompare_eq_zero ps qs]
    · simp [MStringCompare, h, Nat.lt_asymm h, (Nat.ne_of_lt h).symm]

theorem mStringCompare_eq_neg_one :
    ∀ a b : List Nat, MStringCompare a b = -1 ↔ ProperPfxOf a b
  | [], [] => by
    simp [MStringCompare, ProperPfxOf]
  | [], q :: qs => by
    have hif : MStringCompare [] (q :: qs) = -1 := by simp [MStringCompare]
    rw [hif]
    exact iff_of_true rfl ⟨pfxOf_nil_left _, by simp⟩
  | p :: ps, [] => by
    have hif : MStringCompare (p :: ps) [] = 1 := by simp [MStringCompare]
    rw [hif]
    exact iff_of_false (by decide) fun h => not_pfxOf_cons_nil p ps h.1
  | p :: ps, q :: qs => by
    rw [properPfxOf_cons]
    rcases Nat.lt_trichotomy p q with h | h | h
    · simp [MStringCompare, h, Nat.ne_of_lt h]
    · subst h
      simp [MStringCompare, mStringCompare_eq_neg_one ps qs]
    · simp [MStringCompare, h, Nat.lt_asymm h, (Nat.ne_of_lt h).symm]

theorem mStringCompare_eq_neg_two :
    ∀ a b : List Nat, MStringCompare a b = -2 ↔ List.Lex (· < ·) a b ∧ ¬ PfxOf a b
  | [], [] => by
    have hif : MStringCompare [] [] = 0 := rfl
    rw [hif]
    exact iff_of_false (by decide) fun h => by cases h.1
  | [], q :: qs => by
    have hif : MStringCompare [] (q :: qs) = -1 := by simp [MStringCompare]
    rw [hif]
    exact iff_of_false (by decide) fun h => h.2 (pfxOf_nil_left _)
  | p :: ps, [] => by
    have hif : MStringCompare (p :: ps) [] = 1 := by simp [MStringCompare]
    rw [hif]
    exact iff_of_false (by decide) fun h => by cases h.1
  | p :: ps, q :: qs => by
    rcases Nat.lt_trichotomy p q with h | h | h
    · have hif : MStringCompare (p :: ps) (q :: qs) = -2 := by
        simp [MStringCompare, h]
      rw [hif]
      refine iff_of_true rfl ⟨List.Lex.rel h, fun hp => ?_⟩
      rw [pfxOf_cons] at hp
      exact Nat.ne_of_lt h hp.1
    · subst h
      have hif : MStringCompare (p :: ps) (p :: qs) = MStringCompare ps qs := by
        simp [MStringCompare]
      rw [hif, mStringCompare_eq_neg_two ps qs, pfxOf_cons]
      constructor
      · rintro ⟨hl, hp⟩
        exact ⟨List.Lex.cons hl, fun hc => hp hc.2⟩
      · rintro ⟨hl, hp⟩
        cases hl with
        | cons hl' => exact ⟨hl', fun hc => hp ⟨rfl, hc⟩⟩
        | rel hr => exact absurd hr (lt_irrefl p)
    · have hif : MStringCompare (p :: ps) (q :: qs) = 2 := by
        simp [MStringCompare, h, Nat.lt_asymm h]
      rw [hif]
      refine iff_of_false (by decide) ?_
      rintro ⟨hl, -⟩
      cases hl with
      | cons hl' => exact absurd h (lt_irrefl _)
      | rel hr => exact Nat.lt_asymm h hr

theorem mStringCompare_cases (a b : List Nat) :
    MStringCompare a b = 0 ∨ MStringCompare a b = -1 ∨ MStringCompare a b = 1 ∨
      MStringCompare a b = -2 ∨ MStringCompare a b = 2 := by
  induction a generalizing b with
  | nil => cases b <;> simp [MStringCompare]
  | cons p ps ih =>
    cases b with
    | nil => simp [MStringCompare]
    | cons q qs =>
      rcases Nat.lt_trichotomy p q with h | h | h
      · simp [MStringCompare, h]
      · subst h
        simpa [MStringCompare] using ih qs
      · simp [MStringCompare, h, Nat.lt_asymm h]

/--
Claim C1: the lexicographic compare (no match method) returns exactly one
of five outcomes: `0` iff the two code-unit sequences are equal; `-1` iff
the first is a proper head of the second; `1` iff the second is a proper
head of the first; `-2` iff the first is lexicographically less and not a
head of the second; `2` iff the second is lexicographically less and not a
head of the first; and comparing any sequence with itself gives `0`.
-/
theorem compare_five_way_outcomes (a b : List Nat) :
    (MStringCompare a b = 0 ↔ a = b) ∧
    (MStringCompare a b = -1 ↔ ProperPfxOf a b) ∧
    (MStringCompare a b = 1 ↔ ProperPfxOf b a) ∧
    (MStringCompare a b = -2 ↔ List.Lex (· < ·) a b ∧ ¬ PfxOf a b) ∧
    (MStringCompare a b = 2 ↔ List.Lex (· < ·) b a ∧ ¬ PfxOf b a) ∧
    MStringCompare a a = 0 ∧
    (MStringCompare a b = 0 ∨ MStringCompare a b = -1 ∨ MStringCompare a b = 1 ∨
      MStringCompare a b = -2 ∨ MStringCompare a b = 2) := by
  refine ⟨mStringCompare_eq_zero a b, mStringCompare_eq_neg_one a b, ?_, ?_,
    ?_, mStringCompare_self a, mStringCompare_cases a b⟩
  · rw [mStringCompare_swap a b, neg_eq_iff_eq_neg]
    exact mStringCompare_eq_neg_one b a
  · exact mStringCompare_eq_neg_two a b
  · rw [mStringCompare_swap a b, neg_eq_iff_eq_neg]
    exact mStringCompare_eq_neg_two b a

/--
Claim C7: the five-way lexicographic compare is antisymmetric under sign
negation: for all code-unit sequences `a` and `b`,
`compare(a,b) = -compare(b,a)`.
-/
theorem compare_antisymmetric (a b : List Nat) :
    MStringCompare a b = -MStringCompare b a :=
  mStringCompare_swap a b

/-- Embedding of the constant `npos = size_t(-1)`, with `size_t` 64 bits wide. -/
def npos : Nat := 2 ^ 64 - 1

/--
Embedding of `MString::Compare(const uint16_t* aText)`: the second
argument is the contents of the null-terminated buffer.  While this
string has units left, a terminator in the other text gives `1`, and a
differing unit gives `-2` or `2`; when this string runs out, the result
is `0` on a terminator and `-1` otherwise.  The source never reads past
the terminator, so the cases where the buffer list is exhausted without a
terminator cannot arise for well-formed input.
-/
def MStringCompareNullTerminated : List Nat → List Nat → Int
  | [], [] => 0
  | [], q0 :: _ => if q0 = 0 then 0 else -1
  | _ :: _, [] => 1
  | p :: ps, q0 :: qs =>
    if q0 = 0 then 1
    else if p < q0 then -2
    else if q0 < p then 2
    else MStringCompareNullTerminated ps qs

/--
The loop of `MString::Compare(const uint16_t* aText,size_t aLength)` for
`aLength != npos`: the third argument is the remaining count `m`.  While
both `n` (units left in this string) and `m` are nonzero the units are
compared; at exit `m != 0` gives `-1`, then `n != 0` gives `1`, else `0`.
The case of a buffer shorter than `m` is an out-of-bounds read in the
source and cannot arise for well-formed input; it is mapped to `1`.
-/
def compareLenAux : List Nat → List Nat → Nat → Int
  | [], _, m => if m ≠ 0 then -1 else 0
  | _ :: _, _, 0 => 1
  | _ :: _, [], _ + 1 => 1
  | p :: ps, q0 :: qs, m + 1 =>
    if p < q0 then -2
    else if q0 < p then 2
    else compareLenAux ps qs m

/--
Embedding of `MString::Compare(const uint16_t* aText,size_t aLength)`:
if `aLength` is `npos` it delegates to the null-terminated overload,
otherwise it runs the counted comparison loop.
-/
def MStringCompareWithLength (a q : List Nat) (len : Nat) : Int :=
  if len = npos then MStringCompareNullTerminated a q
  else compareLenAux a q len

theorem compareLenAux_eq_nullTerminated :
    ∀ (a t : List Nat), (∀ x ∈ t, x ≠ 0) →
      compareLenAux a t t.length = MStringCompareNullTerminated a (t ++ [0])
  | [], [], _ => rfl
  | [], t0 :: ts, h => by
    have h0 : t0 ≠ 0 := h t0 (List.mem_cons_self t0 ts)
    simp [compareLenAux, MStringCompareNullTerminated, h0]
  | p :: ps, [], _ => by
    simp [compareLenAux, MStringCompareNullTerminated]
  | p :: ps, t0 :: ts, h => by
    have h0 : t0 ≠ 0 := h t0 (List.mem_cons_self t0 ts)
    have hts : ∀ x ∈ ts, x ≠ 0 := fun x hx => h x (List.mem_cons_of_mem t0 hx)
    simp only [List.length_cons, compareLenAux, List.cons_append,
      MStringCompareNullTerminated, if_neg h0]
    rcases Nat.lt_trichotomy p t0 with hlt | heq | hgt
    · simp [hlt]
    · subst heq
      simp [compareLenAux_eq_nullTerminated ps ts hts]
    · simp [hgt, Nat.lt_asymm hgt]

/--
Claim C9: the length-counted and null-terminated UTF-16 compare overloads
agree: for every string `a` and every NUL-free code-unit sequence `t`,
comparing `a` against `t` with explicit length `t.length` equals comparing
`a` against the null-terminated buffer `t ++ [0]`; and passing `npos` as
the length delegates to (and so equals) the null-terminated compare.
-/
theorem compare_overloads_agree (a t : List Nat) (h : ∀ x ∈ t, x ≠ 0)
    (hlen : t.length ≠ npos) :
    MStringCompareWithLength a t t.length = MStringCompareNullTerminated a (t ++ [0]) ∧
    MStringCompareWithLength a (t ++ [0]) npos = MStringCompareNullTerminated a (t ++ [0]) := by
  constructor
  · rw [MStringCompareWithLength, if_neg hlen]
    exact compareLenAux_eq_nullTerminated a t h
  · rw [MStringCompareWithLength, if_pos rfl]

/--
Witness for claim C9 at a concrete input: `a = [104,105]`, `t = [104]`.
-/
theorem compare_overloads_agree_witness :
    MStringCompareWithLength [104, 105] [104] ([104] : List Nat).length =
      MStringCompareNullTerminated [104, 105] ([104] ++ [0]) ∧
    MStringCompareWithLength [104, 105] ([104] ++ [0]) npos =
      MStringCompareNullTerminated [104, 105] ([104] ++ [0]) :=
  compare_overloads_agree [104, 105] [104] (by decide) (by norm_num [npos])

/-- Embedding of `enum class StringMatchMethodFlag`. -/
inductive StringMatchMethodFlag
  | Exact
  | PrefixFlag
  | IgnoreSymbols
  | FoldAccents
  | Fuzzy
  | FoldCase
  | IgnoreWhitespace
deriving DecidableEq

/-- The numeric value of each `StringMatchMethodFlag` enumerator. -/
def StringMatchMethodFlag.val : StringMatchMethodFlag → Nat
  | .Exact => 0
  | .PrefixFlag => 1
  | .IgnoreSymbols => 2
  | .FoldAccents => 4
  | .Fuzzy => 8
  | .FoldCase => 16
  | .IgnoreWhitespace => 32

/-- Embedding of `class StringMatchMethod`: its one data member `m_flags` (a `uint16_t`). -/
structure StringMatchMethod where
  m_flags : Nat
deriving DecidableEq

/--
Embedding of `StringMatchMethod::operator+=`: the source executes
`m_flags |= uint16_t(aFlag); return *this;`, updating the object's own
`m_flags` member.  The result here is the post-state of the object the
operator was invoked on.
-/
def StringMatchMethod.plusEq (m : StringMatchMethod) (f : StringMatchMethodFlag) :
    StringMatchMethod :=
  ⟨m.m_flags ||| f.val⟩

/--
Embedding of `StringMatchMethod::operator-=`: the source executes
`m_flags &= ~uint16_t(aFlag); return *this;`; within the 16-bit member
the complement of the flag is `65535 ^^^ f.val`.  The result is the
post-state of the object the operator was invoked on.
-/
def StringMatchMethod.minusEq (m : StringMatchMethod) (f : StringMatchMethodFlag) :
    StringMatchMethod :=
  ⟨m.m_flags &&& (65535 ^^^ f.val)⟩

/-- Embedding of `StringMatchMethod::operator==`: bitwise equality of `m_flags`. -/
def StringMatchMethod.eqOp (a b : StringMatchMethod) : Bool :=
  a.m_flags == b.m_flags

/--
Embedding of `StringMatchMethod::FromFlags`, which calls the private
constructor `StringMatchMethod(unsigned int aFlags)` whose initializer is
`m_flags(uint16_t(aFlags & 63))`.
-/
def StringMatchMethod.FromFlags (f : Nat) : StringMatchMethod :=
  ⟨f &&& 63⟩

/--
Counterexample to claim C5: `operator+=` is an operation of the
`StringMatchMethod` class that mutates the object it is invoked on:
applied to a method with no flags set, it leaves the object with flag
bit 1 set, so the object's state after the call differs from before.
-/
theorem stringMatchMethod_plusEq_mutates :
    StringMatchMethod.plusEq ⟨0⟩ StringMatchMethodFlag.PrefixFlag ≠ (⟨0⟩ : StringMatchMethod) := by
  decide

/--
Claim C5 as amended: a `StringMatchMethod` is a 6-bit flag set whose
equality is bitwise on the flags and whose construction from a raw bit
pattern masks to the six defined bits; it is not immutable, however:
`operator+=` and `operator-=` mutate the invoked object's flags in place,
setting or clearing the given flag bit.
-/
theorem stringMatchMethod_flags_and_equality :
    (∀ a b : StringMatchMethod, a.eqOp b = true ↔ a.m_flags = b.m_flags) ∧
    (∀ f : Nat, (StringMatchMethod.FromFlags f).m_flags = f % 64) ∧
    (∀ (m : StringMatchMethod) (fl : StringMatchMethodFlag),
      (m.plusEq fl).m_flags = m.m_flags ||| fl.val) ∧
    (∀ (m : StringMatchMethod) (fl : StringMatchMethodFlag),
      (m.minusEq fl).m_flags = m.m_flags &&& (65535 ^^^ fl.val)) ∧
    (∃ (m : StringMatchMethod) (fl : StringMatchMethodFlag), m.plusEq fl ≠ m) := by
  refine ⟨fun a b => ?_, fun f => ?_, fun m fl => rfl, fun m fl => rfl,
    ⟨⟨0⟩, StringMatchMethodFlag.PrefixFlag, by decide⟩⟩
  · simp [StringMatchMethod.eqOp]
  · have h := Nat.and_pow_two_sub_one_eq_mod f 6
    norm_num at h
    exact h

/--
Claim C10: constructing a `StringMatchMethod` from a raw bit pattern
masks it with 63, so `FromFlags(f).Flags() = f mod 64 < 64`, and the
6-bit bound is preserved by the flag-adding and flag-removing operators.
-/
theorem stringMatchMethod_six_bit_invariant (f : Nat) (m : StringMatchMethod)
    (fl : StringMatchMethodFlag) (h : m.m_flags < 64) :
    (StringMatchMethod.FromFlags f).m_flags = f % 64 ∧
    (StringMatchMethod.FromFlags f).m_flags < 64 ∧
    (m.plusEq fl).m_flags < 64 ∧
    (m.minusEq fl).m_flags < 64 := by
  have hmask : (StringMatchMethod.FromFlags f).m_flags = f % 64 := by
    have h' := Nat.and_pow_two_sub_one_eq_mod f 6
    norm_num at h'
    exact h'
  refine ⟨hmask, ?_, ?_, ?_⟩
  · rw [hmask]
    exact Nat.mod_lt f (by norm_num)
  · have hfl : fl.val < 64 := by cases fl <;> decide
    have h64 : (64 : Nat) = 2 ^ 6 := by norm_num
    rw [StringMatchMethod.plusEq]
    calc m.m_flags ||| fl.val < 2 ^ 6 :=
          Nat.or_lt_two_pow (h64 ▸ h) (h64 ▸ hfl)
    _ = 64 := by norm_num
  · calc (m.minusEq fl).m_flags ≤ m.m_flags := Nat.and_le_left
    _ < 64 := h

/--
Witness for claim C10 at a concrete input: `f = 200`, `m = ⟨63⟩`,
`fl = Fuzzy`.
-/
theorem stringMatchMethod_six_bit_invariant_witness :
    (StringMatchMethod.FromFlags 200).m_flags = 200 % 64 ∧
    (StringMatchMethod.FromFlags 200).m_flags < 64 ∧
    (StringMatchMethod.plusEq ⟨63⟩ StringMatchMethodFlag.Fuzzy).m_flags < 64 ∧
    (StringMatchMethod.minusEq ⟨63⟩ StringMatchMethodFlag.Fuzzy).m_flags < 64 :=
  stringMatchMethod_six_bit_invariant 200 ⟨63⟩ StringMatchMethodFlag.Fuzzy (by decide)

/-- Embedding of `KErrorUnimplemented` from cartotype_errors.h. -/
def KErrorUnimplemented : Nat := 7

/--
Embedding of the state of `class FoldingIterator`: the match method, the
two fold switches, the buffered lower-case expansion (`iCaseVariant` with
its length and read index), and the code points not yet consumed from the
wrapped inner iterator.
-/
structure FoldingIterator where
  stringMatchMethod : StringMatchMethod
  foldAccents : Bool
  foldCase : Bool
  caseVariant : List Int
  caseVariantLength : Nat
  caseVariantIndex : Nat
  innerRemaining : List Int

/--
Embedding of `FoldingIterator::Back()`: the body is
`throw KErrorUnimplemented;`, so in every state the call raises
`KErrorUnimplemented` (modelled as `Except.error`) and never returns
normally.
-/
def FoldingIterator.Back (_ : FoldingIterator) : Except Nat FoldingIterator :=
  .error KErrorUnimplemented

/--
Claim C6: for every `FoldingIterator`, in every state, `Back()` fails
with `KErrorUnimplemented` (code 7) and never succeeds.
-/
theorem foldingIterator_back_always_unimplemented (s : FoldingIterator) :
    FoldingIterator.Back s = .error KErrorUnimplemented ∧
    KErrorUnimplemented = 7 ∧
    ∀ s' : FoldingIterator, FoldingIterator.Back s ≠ .ok s' :=
  ⟨rfl, rfl, fun _ h => by cases h⟩

/--
The storage variant of an `MString` whose mutators are under study:
the read-only `Text` view, the borrowed `WritableTextView` with its
run-time maximum, and the owned `TextBuffer<aMaxLength>` with its
compile-time maximum.
-/
inductive TextVariant
  | textView
  | writableTextView (maxLength : Nat)
  | textBuffer (maxLength : Nat)
deriving DecidableEq

/--
Embedding of the `Writable()` overrides: `Text::Writable` returns false;
`WritableTextView::Writable` and `TextBuffer::Writable` return true.
-/
def TextVariant.Writable : TextVariant → Bool
  | .textView => false
  | .writableTextView _ => true
  | .textBuffer _ => true

/--
Embedding of the `MaxWritableLength()` overrides: 0 for `Text`, the
stored or compile-time maximum for the writable variants.
-/
def TextVariant.MaxWritableLength : TextVariant → Nat
  | .textView => 0
  | .writableTextView m => m
  | .textBuffer m => m

/--
Embedding of the effect of `ResizeBuffer(aNewLength)` on `iLength`:
`Text::ResizeBuffer` asserts and, in a release build, leaves the length
unchanged; `WritableTextView::ResizeBuffer` and `TextBuffer::ResizeBuffer`
both execute `iLength = std::min(aNewLength,maxLength)`.
-/
def TextVariant.resizeLength : TextVariant → Nat → Nat → Nat
  | .textView, cur, _ => cur
  | .writableTextView m, _, req => min req m
  | .textBuffer m, _, req => min req m

/-- An `MString` object: its storage variant and its current code-unit content (whose length is `iLength`). -/
structure Str where
  variant : TextVariant
  content : List Nat
deriving DecidableEq

/--
Embedding of `MString::Clear()`: if the string is not writable, assert
and return (a release-build no-op); otherwise `ResizeBuffer(0)`.
-/
def Str.Clear (s : Str) : Str :=
  if s.variant.Writable then
    { s with content := s.content.take (s.variant.resizeLength s.content.length 0) }
  else s

/--
Embedding of `MString::Append(const MString& aString)`: if the string is
not writable, assert and return (a release-build no-op); otherwise
remember the old length, `ResizeBuffer(iLength + aString.iLength)` —
which keeps the first `old` units and may clamp the new length — and
`memcpy` the first `iLength - old_length` units of the argument into the
end of the buffer.
-/
def Str.Append (s : Str) (t : List Nat) : Str :=
  if s.variant.Writable then
    let old := s.content.length
    let newLen := s.variant.resizeLength old (old + t.length)
    { s with content := s.content.take newLen ++ t.take (newLen - old) }
  else s

/--
Embedding of `MString::Set(const MString& aString)`: if the string is not
writable, assert and return (a release-build no-op); otherwise
`ResizeBuffer(aString.iLength)` and `memcpy` the first `iLength` units of
the argument into the buffer.
-/
def Str.Set (s : Str) (t : List Nat) : Str :=
  if s.variant.Writable then
    let newLen := s.variant.resizeLength s.content.length t.length
    { s with content := t.take newLen }
  else s

/--
Claim C3: for every string whose storage is not writable — in this code
base exactly the read-only `Text` view — the mutating operations `Clear`,
`Append` and `Set` are silent no-ops in release builds: they return
without raising an error and leave the string (hence its length and
content) unchanged.
-/
theorem readonly_mutators_are_noops (s : Str) (t : List Nat)
    (h : s.variant.Writable = false) :
    s.Clear = s ∧ s.Append t = s ∧ s.Set t = s ∧
    TextVariant.textView.Writable = false := by
  refine ⟨?_, ?_, ?_, rfl⟩ <;> simp [Str.Clear, Str.Append, Str.Set, h]

/--
Witness for claim C3 at a concrete input: a read-only view holding
`[72, 105]`, with `[33]` appended or set.
-/
theorem readonly_mutators_are_noops_witness :
    Str.Clear ⟨.textView, [72, 105]⟩ = ⟨.textView, [72, 105]⟩ ∧
    Str.Append ⟨.textView, [72, 105]⟩ [33] = ⟨.textView, [72, 105]⟩ ∧
    Str.Set ⟨.textView, [72, 105]⟩ [33] = ⟨.textView, [72, 105]⟩ ∧
    TextVariant.textView.Writable = false :=
  readonly_mutators_are_noops ⟨.textView, [72, 105]⟩ [33] rfl

theorem append_truncates (M : Nat) (v : TextVariant) (c t : List Nat)
    (hv : v = .textBuffer M ∨ v = .writableTextView M) (h : c.length ≤ M) :
    (Str.Append ⟨v, c⟩ t).content = (c ++ t).take (min (c.length + t.length) M) ∧
    (Str.Append ⟨v, c⟩ t).content.length = min (c.length + t.length) M := by
  have hres : ∀ cur req, v.resizeLength cur req = min req M := by
    rcases hv with rfl | rfl <;> intro cur req <;> rfl
  have hw : v.Writable = true := by rcases hv with rfl | rfl <;> rfl
  have hle : c.length ≤ min (c.length + t.length) M := by omega
  constructor
  · simp only [Str.Append, hw, if_pos, hres]
    rw [List.take_of_length_le hle, List.take_append_eq_append_take,
      List.take_of_length_le (by omega : c.length ≤ min (c.length + t.length) M)]
  · simp only [Str.Append, hw, if_pos, hres]
    rw [List.take_of_length_le hle]
    simp only [List.length_append, List.length_take]
    omega

/--
Claim C4: for every fixed-capacity string — a `TextBuffer` with
compile-time maximum `M` or a `WritableTextView` with run-time maximum
`M` — and every requested new length `n`, `ResizeBuffer` sets the length
to `min n M`; appending text longer than the remaining room truncates
the stored text to the capacity without error, setting text clamps to
the capacity, and the resulting length never exceeds the capacity.
-/
theorem fixed_capacity_resize_clamps (M n cur : Nat) (c t : List Nat)
    (h : c.length ≤ M) :
    TextVariant.resizeLength (.textBuffer M) cur n = min n M ∧
    TextVariant.resizeLength (.writableTextView M) cur n = min n M ∧
    (Str.Append ⟨.textBuffer M, c⟩ t).content = (c ++ t).take (min (c.length + t.length) M) ∧
    (Str.Append ⟨.textBuffer M, c⟩ t).content.length ≤ M ∧
    (Str.Append ⟨.writableTextView M, c⟩ t).content = (c ++ t).take (min (c.length + t.length) M) ∧
    (Str.Append ⟨.writableTextView M, c⟩ t).content.length ≤ M ∧
    (Str.Set ⟨.textBuffer M, c⟩ t).content.length ≤ M ∧
    (Str.Set ⟨.writableTextView M, c⟩ t).content.length ≤ M := by
  obtain ⟨hb1, hb2⟩ := append_truncates M (.textBuffer M) c t (Or.inl rfl) h
  obtain ⟨hw1, hw2⟩ := append_truncates M (.writableTextView M) c t (Or.inr rfl) h
  refine ⟨rfl, rfl, hb1, by omega, hw1, by omega, ?_, ?_⟩ <;>
    simp [Str.Set, TextVariant.Writable, TextVariant.resizeLength, List.length_take]

/--
Witness for claim C4 at a concrete input: capacity `M = 3`, stored text
`[65, 66]`, appended or set text `[67, 68]`, requested length `n = 9`.
-/
theorem fixed_capacity_resize_clamps_witness :
    TextVariant.resizeLength (.textBuffer 3) 2 9 = min 9 3 ∧
    TextVariant.resizeLength (.writableTextView 3) 2 9 = min 9 3 ∧
    (Str.Append ⟨.textBuffer 3, [65, 66]⟩ [67, 68]).content =
      ([65, 66] ++ [67, 68]).take (min (([65, 66] : List Nat).length + ([67, 68] : List Nat).length) 3) ∧
    (Str.Append ⟨.textBuffer 3, [65, 66]⟩ [67, 68]).content.length ≤ 3 ∧
    (Str.Append ⟨.writableTextView 3, [65, 66]⟩ [67, 68]).content =
      ([65, 66] ++ [67, 68]).take (min (([65, 66] : List Nat).length + ([67, 68] : List Nat).length) 3) ∧
    (Str.Append ⟨.writableTextView 3, [65, 66]⟩ [67, 68]).content.length ≤ 3 ∧
    (Str.Set ⟨.textBuffer 3, [65, 66]⟩ [67, 68]).content.length ≤ 3 ∧
    (Str.Set ⟨.writableTextView 3, [65, 66]⟩ [67, 68]).content.length ≤ 3 :=
  fixed_capacity_resize_clamps 3 9 2 [65, 66] [67, 68] (by decide)

/-- Embedding of `String::KOwnTextLength`, the capacity in UTF-16 units of the inline `iOwnText` buffer. -/
def KOwnTextLength : Nat := 32

/--
The state of a `class String` (the growable owned string) relevant to its
storage strategy: whether `iText` points at the inline `iOwnText` buffer,
the reserved capacity `iReserved`, and the length `iLength`.
-/
structure String where
  usesOwnText : Bool
  reserved : Nat
  len : Nat
deriving DecidableEq

/--
Embedding of the default constructor `String()`: the initializer list is
`iText(iOwnText), iReserved(KOwnTextLength)`, and the inherited `MString`
constructor zeroes `iLength`; so a fresh `String` uses the inline buffer,
reserves exactly `KOwnTextLength` units and is empty.
-/
def String.new : String :=
  { usesOwnText := true, reserved := KOwnTextLength, len := 0 }

/--
Modelled from the spec: `String::ResizeBuffer` is defined in
cartotype_string.cpp, which is not among the sources here.  Per the spec,
a GrowableString "holds an inline buffer (capacity 32 units) until
content exceeds it, then switches to a separate allocation; resize may
grow or shrink", and once switched it never reverts to the inline buffer.
So while the requested length fits the reserved capacity only the length
changes; beyond it the string switches to a separate allocation at least
as large as the request.
-/
def String.ResizeBuffer (s : String) (n : Nat) : String :=
  if n ≤ s.reserved then { s with len := n }
  else { usesOwnText := false, reserved := n, len := n }

/--
Claim C8: a newly constructed `String` holds its content in the inline
buffer of capacity exactly 32 UTF-16 units with no separate allocation,
and keeps doing so until the content length exceeds 32; the reserved
capacity of a fresh `String` is therefore 32.
-/
theorem fresh_string_uses_inline_buffer (n : Nat) (h : n ≤ 32) :
    String.new.reserved = 32 ∧
    String.new.usesOwnText = true ∧
    String.new.len = 0 ∧
    KOwnTextLength = 32 ∧
    (String.new.ResizeBuffer n).usesOwnText = true ∧
    (String.new.ResizeBuffer n).reserved = 32 ∧
    (∀ m, 32 < m → (String.new.ResizeBuffer m).usesOwnText = false) := by
  refine ⟨rfl, rfl, rfl, rfl, ?_, ?_, fun m hm => ?_⟩
  · simp [String.new, String.ResizeBuffer, KOwnTextLength, h]
  · simp [String.new, String.ResizeBuffer, KOwnTextLength, h]
  · have hm' : ¬ m ≤ KOwnTextLength := by simp [KOwnTextLength]; omega
    simp [String.new, String.ResizeBuffer, hm']

/--
Witness for claim C8 at a concrete input: growing a fresh `String` to
length 32 keeps the inline buffer.
-/
theorem fresh_string_uses_inline_buffer_witness :
    String.new.reserved = 32 ∧
    String.new.usesOwnText = true ∧
    String.new.len = 0 ∧
    KOwnTextLength = 32 ∧
    (String.new.ResizeBuffer 32).usesOwnText = true ∧
    (String.new.ResizeBuffer 32).reserved = 32 ∧
    (∀ m, 32 < m → (String.new.ResizeBuffer m).usesOwnText = false) :=
  fresh_string_uses_inline_buffer 32 (by decide)

/--
Embedding of `MString::KMaxFuzzyDistance`, declared in the header as
`static constexpr int KMaxFuzzyDistance = 4`: the maximum edit distance
allowed by fuzzy matching.
-/
def KMaxFuzzyDistance : Nat := 4

/--
Modelled from the spec: the true edit distance between two folded
code-point sequences, with insertions, deletions and substitutions
weighted equally (the standard Wagner–Fischer recurrence).  The spec
describes fuzzy matching as "bounded edit distance (insertions,
deletions, substitutions weighted equally)".
-/
def editDist (a b : List Nat) : Nat :=
  match a, b with
  | [], b => b.length
  | _ :: _, [] => a.length
  | x :: xs, y :: ys =>
    min (if x = y then editDist xs ys else editDist xs ys + 1)
        (min (editDist xs (y :: ys) + 1) (editDist (x :: xs) ys + 1))
termination_by a.length + b.length
decreasing_by all_goals (simp only [List.length_cons]; omega)

/--
The minimum of two optional distances, where `none` means "budget
exceeded" and so acts as infinity.
-/
def optMin : Option Nat → Option Nat → Option Nat
  | none, o => o
  | some m, none => some m
  | some m, some n => some (min m n)

/-- A distance clipped to a budget: `some v` when `v ≤ k`, else `none`. -/
def toOpt (v k : Nat) : Option Nat :=
  if v ≤ k then some v else none

theorem optMin_toOpt (v w k : Nat) :
    optMin (toOpt v k) (toOpt w k) = toOpt (min v w) k := by
  unfold toOpt
  rcases le_or_lt v k with hv | hv <;> rcases le_or_lt w k with hw | hw
  · rw [if_pos hv, if_pos hw, if_pos (by omega : min v w ≤ k)]
    rfl
  · rw [if_pos hv, if_neg (by omega : ¬ w ≤ k), if_pos (by omega : min v w ≤ k),
      (by omega : min v w = v)]
    rfl
  · rw [if_neg (by omega : ¬ v ≤ k), if_pos hw, if_pos (by omega : min v w ≤ k),
      (by omega : min v w = w)]
    rfl
  · rw [if_neg (by omega : ¬ v ≤ k), if_neg (by omega : ¬ w ≤ k),
      if_neg (by omega : ¬ min v w ≤ k)]
    rfl

/--
Modelled from the spec: the bounded edit-distance computation behind
`MString::FuzzyCompare`/`FuzzyMatch`, whose bodies are in
cartotype_string.cpp and not among the sources here.  Per the spec it
returns the distance when it does not exceed the budget `k`, and signals
"exceeds" (here `none`) instead of computing distances beyond the
budget: each insertion, deletion or substitution spends one unit of the
remaining budget, and a branch whose budget is exhausted is cut off.
-/
def boundedDist (a b : List Nat) (k : Nat) : Option Nat :=
  match a, b with
  | [], b => if b.length ≤ k then some b.length else none
  | _ :: _, [] => if a.length ≤ k then some a.length else none
  | x :: xs, y :: ys =>
    optMin
      (if x = y then boundedDist xs ys k
       else match k with
         | 0 => none
         | k' + 1 => (boundedDist xs ys k').map (· + 1))
      (optMin
        (match k with
         | 0 => none
         | k' + 1 => (boundedDist xs (y :: ys) k').map (· + 1))
        (match k with
         | 0 => none
         | k' + 1 => (boundedDist (x :: xs) ys k').map (· + 1)))
termination_by a.length + b.length
decreasing_by all_goals (simp only [List.length_cons]; omega)

/--
Modelled from the spec: `MString::FuzzyMatch` returns a boolean
"distance does not exceed the cap", with the budget capped at
`KMaxFuzzyDistance`.
-/
def FuzzyMatch (a b : List Nat) (maxDist : Nat) : Bool :=
  (boundedDist a b (min maxDist KMaxFuzzyDistance)).isSome

theorem toOpt_map_succ (v k' : Nat) :
    (toOpt v k').map (· + 1) = toOpt (v + 1) (k' + 1) := by
  unfold toOpt
  rcases le_or_lt v k' with h | h
  · rw [if_pos h, if_pos (by omega : v + 1 ≤ k' + 1)]
    rfl
  · rw [if_neg (by omega : ¬ v ≤ k'), if_neg (by omega : ¬ v + 1 ≤ k' + 1)]
    rfl

theorem optMin_none_right (o : Option Nat) : optMin o none = o := by
  cases o <;> rfl

theorem editDist_cons (x y : Nat) (xs ys : List Nat) :
    editDist (x :: xs) (y :: ys) =
      min (if x = y then editDist xs ys else editDist xs ys + 1)
        (min (editDist xs (y :: ys) + 1) (editDist (x :: xs) ys + 1)) := by
  rw [editDist.eq_def]

theorem boundedDist_cons_zero (x y : Nat) (xs ys : List Nat) :
    boundedDist (x :: xs) (y :: ys) 0 =
      optMin (if x = y then boundedDist xs ys 0 else none) (optMin none none) := by
  rw [boundedDist.eq_def]

theorem boundedDist_cons_succ (x y : Nat) (xs ys : List Nat) (k' : Nat) :
    boundedDist (x :: xs) (y :: ys) (k' + 1) =
      optMin
        (if x = y then boundedDist xs ys (k' + 1)
         else (boundedDist xs ys k').map (· + 1))
        (optMin ((boundedDist xs (y :: ys) k').map (· + 1))
          ((boundedDist (x :: xs) ys k').map (· + 1))) := by
  rw [boundedDist.eq_def]

theorem toOpt_zero_min (v w1 w2 : Nat) :
    toOpt v 0 = toOpt (min v (min (w1 + 1) (w2 + 1))) 0 := by
  unfold toOpt
  rcases Nat.eq_zero_or_pos v with h | h
  · subst h
    rw [if_pos (by omega : (0 : Nat) ≤ 0),
      if_pos (by omega : min 0 (min (w1 + 1) (w2 + 1)) ≤ 0),
      (by omega : min 0 (min (w1 + 1) (w2 + 1)) = 0)]
  · rw [if_neg (by omega : ¬ v ≤ 0),
      if_neg (by omega : ¬ min v (min (w1 + 1) (w2 + 1)) ≤ 0)]

theorem boundedDist_eq_toOpt :
    ∀ (a b : List Nat) (k : Nat), boundedDist a b k = toOpt (editDist a b) k
  | [], b, k => by
    rw [boundedDist.eq_def, editDist.eq_def]
    rfl
  | x :: xs, [], k => by
    rw [boundedDist.eq_def, editDist.eq_def]
    rfl
  | x :: xs, y :: ys, k => by
    cases k with
    | zero =>
      rw [boundedDist_cons_zero, editDist_cons]
      by_cases hxy : x = y
      · rw [if_pos hxy, if_pos hxy, boundedDist_eq_toOpt xs ys 0,
          optMin_none_right, optMin_none_right]
        exact toOpt_zero_min (editDist xs ys) (editDist xs (y :: ys)) (editDist (x :: xs) ys)
      · rw [if_neg hxy, if_neg hxy]
        show (none : Option Nat) = toOpt _ 0
        unfold toOpt
        rw [if_neg (by omega :
          ¬ min (editDist xs ys + 1) (min (editDist xs (y :: ys) + 1) (editDist (x :: xs) ys + 1)) ≤ 0)]
    | succ k' =>
      rw [boundedDist_cons_succ, editDist_cons,
        boundedDist_eq_toOpt xs (y :: ys) k', boundedDist_eq_toOpt (x :: xs) ys k',
        toOpt_map_succ, toOpt_map_succ]
      by_cases hxy : x = y
      · rw [if_pos hxy, if_pos hxy, boundedDist_eq_toOpt xs ys (k' + 1),
          optMin_toOpt, optMin_toOpt]
      · rw [if_neg hxy, if_neg hxy, boundedDist_eq_toOpt xs ys k',
          toOpt_map_succ, optMin_toOpt, optMin_toOpt]
termination_by a b k => a.length + b.length
decreasing_by all_goals (simp only [List.length_cons]; omega)

/--
Claim C2: fuzzy matching is bounded edit distance (insertions, deletions
and substitutions weighted equally) with the cap constant
`KMaxFuzzyDistance` equal to 4; for every pair of texts with true edit
distance `d` and every budget `maxDist ≤ 4`, `FuzzyMatch` returns true
iff `d ≤ maxDist`.
-/
theorem fuzzy_match_is_bounded_edit_distance (a b : List Nat) (maxDist : Nat)
    (h : maxDist ≤ KMaxFuzzyDistance) :
    KMaxFuzzyDistance = 4 ∧
    (FuzzyMatch a b maxDist = true ↔ editDist a b ≤ maxDist) := by
  refine ⟨rfl, ?_⟩
  rw [FuzzyMatch, Nat.min_eq_left h, boundedDist_eq_toOpt]
  by_cases hd : editDist a b ≤ maxDist <;> simp [toOpt, hd]

/--
Witness for claim C2 at a concrete input: the sequences `[80, 105, 99,
97]` and `[80, 105, 99, 99, 97]` (one insertion apart) with budget 1.
-/
theorem fuzzy_match_is_bounded_edit_distance_witness :
    KMaxFuzzyDistance = 4 ∧
    (FuzzyMatch [80, 105, 99, 97] [80, 105, 99, 99, 97] 1 = true ↔
      editDist [80, 105, 99, 97] [80, 105, 99, 99, 97] ≤ 1) :=
  fuzzy_match_is_bounded_edit_distance [80, 105, 99, 97] [80, 105, 99, 99, 97] 1 (by decide)

end CartoTypeCore
